import Mathlib

/-!
Verification development for the pastens ENS ownership-history service.

The definitions below are a shallow embedding of the TypeScript sources:
the `/api/ens` route (ownership-timeline reconciler and marketplace
classifier), the `/api/leaderboard` route (top-N transition reducer), and
the `ENSHistory` component's `timeline` builder (display-layer transform).

Modelling conventions:
 - JavaScript `Date` values are epoch milliseconds (`Int`); The Graph's
   second-valued timestamp strings are `Int` seconds, multiplied by 1000
   exactly where the source does.  `parseInt` results that the source
   guards with `!isNaN(x) && x > 0` are modelled by the `x > 0` guard
   alone (the model's fields are already numeric).
 - `getFullYear`/`getMonth`/`getDate` are modelled in UTC via the
   standard civil-from-days conversion (the deployment's clock).
 - `toLowerCase` on the ASCII addresses and names handled by the service
   is modelled by `lowerStr`, a character-wise lowercase map.
 - per-block RPC timestamp lookups are an input `List (Option Int)`
   parallel to the transfer list: `none` models a failed `getBlock` call
   (the source's `.catch(() => null)`).
-/

/-- Character-wise lowercase; models JavaScript `toLowerCase()` on the
ASCII strings (hex addresses, ENS names) this service handles. -/
def lowerStr (s : String) : String :=
  ⟨s.data.map Char.toLower⟩

/-- Case-insensitive string equality, `a.toLowerCase() === b.toLowerCase()`. -/
def lowEq (a b : String) : Bool :=
  lowerStr a == lowerStr b

/-- Days-to-civil-date conversion (proleptic Gregorian, UTC).  Returns
(year, month 1..12, day 1..31) for a count of days since 1970-01-01. -/
def civilFromDays (z0 : Int) : Int × Int × Int :=
  let z := z0 + 719468
  let era := z.fdiv 146097
  let doe := z - era * 146097
  let yoe := (doe - doe / 1460 + doe / 36524 - doe / 146096) / 365
  let y := yoe + era * 400
  let doy := doe - (365 * yoe + yoe / 4 - yoe / 100)
  let mp := (5 * doy + 2) / 153
  let d := doy - (153 * mp + 2) / 5 + 1
  let m := if mp < 10 then mp + 3 else mp - 9
  (if m ≤ 2 then y + 1 else y, m, d)

/-- `getFullYear()` of an epoch-millisecond instant (UTC). -/
def yearOf (ms : Int) : Int :=
  (civilFromDays (ms.fdiv 86400000)).1

/-- `getMonth()`-style month of an epoch-millisecond instant (here 1-based;
only ever compared for equality against another `monthOf`). -/
def monthOf (ms : Int) : Int :=
  (civilFromDays (ms.fdiv 86400000)).2.1

/-- `getDate()` of an epoch-millisecond instant (UTC). -/
def dayOf (ms : Int) : Int :=
  (civilFromDays (ms.fdiv 86400000)).2.2

/-- Same calendar day: the source's `getFullYear`/`getMonth`/`getDate`
triple equality. -/
def sameCalendarDay (a b : Int) : Bool :=
  yearOf a == yearOf b && monthOf a == monthOf b && dayOf a == dayOf b

/-- Ethereum mainnet genesis instant used by the source,
`new Date('2015-07-30T00:00:00Z')`, in epoch milliseconds. -/
def genesisMs : Int := 1438214400000

/-- `estimateTimestampFromBlock`: linear estimate
`genesis + blockNumber * 12 * 1000` (12-second average block time). -/
def estimateTimestampFromBlock (blockNumber : Nat) : Int :=
  genesisMs + (blockNumber : Int) * 12 * 1000

/-- The static `MARKETPLACE_CONTRACTS` table of the source, verbatim
(including the malformed 39-character "Seaport V3" key). -/
def MARKETPLACE_CONTRACTS : List (String × String) :=
  [("0x00000000006c3852cbef3e08e8df289169ede581", "OpenSea Seaport"),
   ("0x00000000006cee72100d161c57ada5bb2be1ca79", "OpenSea Seaport V1"),
   ("0x00000000006c7676171937c444f6bde3d6282", "OpenSea Seaport V3"),
   ("0x0000000000000ad24e80fd803c6ac37206a45f15", "OpenSea Seaport V4"),
   ("0x00000000000001ad428e4906ae43d8f9852d0dd6", "OpenSea Seaport V5"),
   ("0x00000000000000adc04c56bf30ac9d3c0aaf14dc", "OpenSea Seaport V6"),
   ("0x7be8076f4ea4a4ad08075c2508e481d6c946d12b", "OpenSea Wyvern"),
   ("0x7f268357a8c2552623316e2562d90e642bb538e5", "OpenSea Wyvern V2"),
   ("0x495f947276749ce646f68ac8c248420045cb7b5e", "OpenSea Shared Storefront")]

/-- Result shape of `isMarketplaceContract`. -/
structure MarketplaceCheck where
  isMarketplace : Bool
  name : Option String
  deriving Repr, DecidableEq

/-- `isMarketplaceContract`: exact (case-insensitive) lookup against the
static marketplace table; a miss leaves `name` undefined. -/
def isMarketplaceContract (address : String) : MarketplaceCheck :=
  let addrLower := lowerStr address
  match MARKETPLACE_CONTRACTS.lookup addrLower with
  | some nm => ⟨true, some nm⟩
  | none => ⟨false, none⟩

/-- A raw transfer row from The Graph (`owner.id`, `blockNumber`,
`transactionID`), for one domain (`/api/ens` route). -/
structure TransferRec where
  owner : String
  blockNumber : Nat
  txID : String
  deriving Repr, DecidableEq, Inhabited

/-- A registration row from The Graph (`registrationDate`, `expiryDate`
in seconds, `registrant.id`). -/
structure RegistrationRec where
  registrationDate : Int
  expiryDate : Int
  registrant : String
  deriving Repr, DecidableEq, Inhabited

/-- The domain row: present on-chain `owner.id` and optional `createdAt`
(seconds). -/
structure DomainRec where
  owner : String
  createdAt : Option Int
  deriving Repr, DecidableEq, Inhabited

/-- One entry of the route's working `owners` array. -/
structure OwnerEntry where
  address : String
  startDate : Int
  endDate : Option Int
  transactionHash : String
  blockNumber : Nat
  isMarketplace : Bool
  marketplaceName : Option String
  deriving Repr, DecidableEq, Inhabited

/-- Resolved instant of transfer `i`: the fetched block timestamp
(seconds, times 1000) when the lookup succeeded, else the linear
estimate from the block number. -/
def resolveTs (ts : List TransferRec) (blocks : List (Option Int)) (i : Nat) : Int :=
  match blocks.getD i none with
  | some t => t * 1000
  | none => estimateTimestampFromBlock (ts.getD i default).blockNumber

/-- The in-loop marketplace classification of transfer `i` (static-table
check, then the escrow heuristic over block-adjacent neighbours, gated on
all three block lookups having succeeded).  Returns
(`isMarketplace`, `marketplaceName`). -/
def classifyTransfer (ts : List TransferRec) (blocks : List (Option Int)) (i : Nat) :
    Bool × Option String :=
  let t := ts.getD i default
  let mc := isMarketplaceContract t.owner
  if mc.isMarketplace then (mc.isMarketplace, mc.name)
  else if 0 < i ∧ i < ts.length - 1 then
    let pt := ts.getD (i - 1) default
    let nt := ts.getD (i + 1) default
    if (blocks.getD (i - 1) none).isSome ∧ (blocks.getD (i + 1) none).isSome ∧
        (blocks.getD i none).isSome then
      let blockDiff : Int := (t.blockNumber : Int) - (pt.blockNumber : Int)
      let nextBlockDiff : Int := (nt.blockNumber : Int) - (t.blockNumber : Int)
      if blockDiff ≤ 10 ∧ nextBlockDiff ≤ 10 then
        if lowEq t.owner pt.owner = false ∧ lowEq t.owner nt.owner = false then
          (true, some "Marketplace")
        else (mc.isMarketplace, mc.name)
      else (mc.isMarketplace, mc.name)
    else (mc.isMarketplace, mc.name)
  else (mc.isMarketplace, mc.name)

/-- The duplicate-suppression condition for transfer `i`: skipped when a
previous transfer exists, both block lookups succeeded, and the previous
transfer has the same block number and the same (case-insensitive) owner. -/
def dupSkip (ts : List TransferRec) (blocks : List (Option Int)) (i : Nat) : Bool :=
  decide (0 < i) &&
  (blocks.getD (i - 1) none).isSome && (blocks.getD i none).isSome &&
  (ts.getD (i - 1) default).blockNumber == (ts.getD i default).blockNumber &&
  lowEq (ts.getD (i - 1) default).owner (ts.getD i default).owner

/-- Indices of transfers that survive duplicate suppression in the
RPC-timestamped processing loop. -/
def keptIdx (ts : List TransferRec) (blocks : List (Option Int)) : List Nat :=
  (List.range ts.length).filter (fun i => !dupSkip ts blocks i)

/-- The `owners` entry the RPC-timestamped loop pushes for transfer `i`:
resolved start instant, end instant taken from the next raw transfer
(when one exists), and the in-loop marketplace classification. -/
def buildEntry (ts : List TransferRec) (blocks : List (Option Int)) (i : Nat) : OwnerEntry :=
  let t := ts.getD i default
  let cls := classifyTransfer ts blocks i
  { address := t.owner
    startDate := resolveTs ts blocks i
    endDate := if i + 1 < ts.length then some (resolveTs ts blocks (i + 1)) else none
    transactionHash := t.txID
    blockNumber := t.blockNumber
    isMarketplace := cls.1
    marketplaceName := cls.2 }

/-- The RPC-branch `owners` array: one entry per transfer surviving
duplicate suppression, in transfer order. -/
def constructOwnersRpc (ts : List TransferRec) (blocks : List (Option Int)) : List OwnerEntry :=
  (keptIdx ts blocks).map (buildEntry ts blocks)

/-- Reconciler input: the transfer rows, registration rows and domain row
from The Graph, the per-transfer block-timestamp lookups when an RPC url
is configured (`none` models no RPC at all), and the request instant. -/
structure ReconcileInput where
  transfers : List TransferRec
  registrations : List RegistrationRec
  domain : DomainRec
  rpc : Option (List (Option Int))
  now : Int
  deriving Repr, DecidableEq, Inhabited

/-- Year-range validation used throughout the route:
`getFullYear() >= 2015 && getFullYear() <= currentYear + 1`. -/
def validYear (ms now : Int) : Bool :=
  decide (2015 ≤ yearOf ms) && decide (yearOf ms ≤ yearOf now + 1)

/-- The no-RPC fallback's base date: first registration's date when valid,
else the domain's `createdAt` when valid, else the linear estimate at the
earliest transfer block. -/
def noRpcBaseDate (inp : ReconcileInput) : Int :=
  let earliestBlock : Nat :=
    match inp.transfers.head? with
    | some t => t.blockNumber
    | none => 0
  let fromReg : Option Int :=
    match inp.registrations.head? with
    | some r =>
        if r.registrationDate > 0 ∧ validYear (r.registrationDate * 1000) inp.now then
          some (r.registrationDate * 1000)
        else none
    | none => none
  match fromReg with
  | some d => d
  | none =>
    match inp.domain.createdAt with
    | some c =>
        if c > 0 ∧ validYear (c * 1000) inp.now then c * 1000
        else estimateTimestampFromBlock earliestBlock
    | none => estimateTimestampFromBlock earliestBlock

/-- The no-RPC `owners` array: per-transfer instants scaled linearly off
the base date by block-number deltas; no duplicate suppression and no
marketplace classification happen on this branch. -/
def constructOwnersEstimate (inp : ReconcileInput) : List OwnerEntry :=
  let ts := inp.transfers
  let base := noRpcBaseDate inp
  let earliestBlock : Int :=
    match ts.head? with
    | some t => (t.blockNumber : Int)
    | none => 0
  (List.range ts.length).map (fun i =>
    let t := ts.getD i default
    let start := base + ((t.blockNumber : Int) - earliestBlock) * 12 * 1000
    { address := t.owner
      startDate := start
      endDate :=
        if i + 1 < ts.length then
          some (start + (((ts.getD (i + 1) default).blockNumber : Int) - (t.blockNumber : Int)) * 12 * 1000)
        else none
      transactionHash := t.txID
      blockNumber := t.blockNumber
      isMarketplace := false
      marketplaceName := none })

/-- The `owners` array before registration reconciliation: RPC branch when
block lookups were issued, linear-estimate branch otherwise. -/
def constructOwners (inp : ReconcileInput) : List OwnerEntry :=
  match inp.rpc with
  | some blocks => constructOwnersRpc inp.transfers blocks
  | none => constructOwnersEstimate inp

/-- Registration reconciliation: using the first-listed registration row,
either overwrite the first owner's start with the registration instant
(same registrant, same calendar day), or prepend a leading registrant
period when the registration precedes the first transfer, or seed a
single period when there are no transfers and the registrant is the
present owner. -/
def applyRegistration (regs : List RegistrationRec) (owners : List OwnerEntry)
    (domainOwner : String) (now : Int) : List OwnerEntry :=
  match regs with
  | [] => owners
  | registration :: _ =>
    if registration.registrationDate > 0 then
      let regDate := registration.registrationDate * 1000
      if validYear regDate now then
        let registrantAddress := lowerStr registration.registrant
        match owners with
        | firstOwner :: rest =>
          if lowerStr firstOwner.address = registrantAddress ∧
              sameCalendarDay firstOwner.startDate regDate then
            { firstOwner with startDate := regDate } :: rest
          else if regDate < firstOwner.startDate then
            if registrantAddress ≠ lowerStr domainOwner then
              ⟨registration.registrant, regDate, some firstOwner.startDate, "", 0, false, none⟩ ::
                firstOwner :: rest
            else firstOwner :: rest
          else firstOwner :: rest
        | [] =>
          if registrantAddress = lowerStr domainOwner then
            [⟨registration.registrant, regDate, none, "", 0, false, none⟩]
          else []
      else owners
    else owners

/-- The route's stable ascending sort of `owners` by start instant. -/
def sortOwners (owners : List OwnerEntry) : List OwnerEntry :=
  List.insertionSort (fun a b => a.startDate ≤ b.startDate) owners

/-- Merging one more same-owner entry into the trailing consolidated
entry: a defined current end replaces an undefined or earlier end; an
undefined current end reopens the period. -/
def mergeInto (last cur : OwnerEntry) : OwnerEntry :=
  match cur.endDate with
  | some currentEnd =>
    match last.endDate with
    | none => { last with endDate := some currentEnd }
    | some lastEnd =>
        if currentEnd > lastEnd then { last with endDate := some currentEnd } else last
  | none => { last with endDate := none }

/-- The consolidation loop, carrying the trailing consolidated entry. -/
def consolGo (last : OwnerEntry) : List OwnerEntry → List OwnerEntry
  | [] => [last]
  | cur :: rest =>
    if lowEq last.address cur.address then consolGo (mergeInto last cur) rest
    else last :: consolGo cur rest

/-- `consolidatedOwners`: merge consecutive same-owner (case-insensitive)
periods, keeping the run's first entry and folding the ends via
`mergeInto`. -/
def consolidatedOwners : List OwnerEntry → List OwnerEntry
  | [] => []
  | o :: rest => consolGo o rest

/-- The degenerate-duration filter: keep open entries, and closed entries
whose end minus start is strictly positive. -/
def filterPositiveDuration (owners : List OwnerEntry) : List OwnerEntry :=
  owners.filter (fun o =>
    match o.endDate with
    | none => true
    | some e => decide (e - o.startDate > 0))

/-- The route's stable descending sort of registrations by
`registrationDate` (the `dateB - dateA` comparator). -/
def sortRegsDesc (regs : List RegistrationRec) : List RegistrationRec :=
  List.insertionSort (fun a b => b.registrationDate ≤ a.registrationDate) regs

/-- Expiry-date extraction: most recent registration's `expiryDate`, kept
only when positive, in a sane year, and at most one day in the past. -/
def expiryDateOf (regs : List RegistrationRec) (now : Int) : Option Int :=
  match (sortRegsDesc regs).head? with
  | none => none
  | some latestRegistration =>
    if latestRegistration.expiryDate > 0 then
      let expiry := latestRegistration.expiryDate * 1000
      if 2015 ≤ yearOf expiry ∧ now - 86400000 < expiry then some expiry else none
    else none

/-- The most recent registration date, used to advance the current
period's start for newly purchased domains; kept only when valid and the
registrant matches the present owner. -/
def mostRecentRegistrationDate (regs : List RegistrationRec) (domainOwner : String)
    (now : Int) : Option Int :=
  match (sortRegsDesc regs).head? with
  | none => none
  | some latestReg =>
    if latestReg.registrationDate > 0 then
      let regDate := latestReg.registrationDate * 1000
      if validYear regDate now ∧ lowEq latestReg.registrant domainOwner then some regDate
      else none
    else none

/-- The matched-branch end-date repair pass over the historical list
(the source's `map` closure, which reads each next entry's start from the
original array; starts are never modified, so consulting the unmodified
tail is equivalent): a defined end later than the next start is pulled
back to the next start, a missing end becomes the next start, and a
missing end on the final entry becomes the current period's start. -/
def fixHist (curStart : Int) : List OwnerEntry → List OwnerEntry
  | [] => []
  | [o] =>
    match o.endDate with
    | some _ => [o]
    | none => [{ o with endDate := some curStart }]
  | o :: next :: rest =>
    (match o.endDate with
     | some e =>
         if next.startDate < e then { o with endDate := some next.startDate } else o
     | none => { o with endDate := some next.startDate }) :: fixHist curStart (next :: rest)

/-- The mismatched-branch repair: give the final historical entry an end
(the current period's start) when it has none. -/
def closeLast (hist : List OwnerEntry) (curStart : Int) : List OwnerEntry :=
  match hist.getLast? with
  | none => hist
  | some lastHistorical =>
    if lastHistorical.endDate.isNone then
      hist.dropLast ++ [{ lastHistorical with endDate := some curStart }]
    else hist

/-- The `currentOwnerData` record the route returns: address, start and
optional end (the expiry), transaction hash, and the avatar attached by
the enrichment step. -/
structure CurrentOwnerData where
  address : String
  startDate : Int
  endDate : Option Int
  transactionHash : String
  avatar : Option String
  deriving Repr, DecidableEq, Inhabited

/-- The reconciler's response body: historical periods, the current
period, and the resolved expiry date. -/
structure ReconcileResult where
  historical : List OwnerEntry
  currentOwner : CurrentOwnerData
  expiryDate : Option Int
  deriving Repr, DecidableEq, Inhabited

/-- The fully processed `owners` list: construction, registration
reconciliation, stable sort by start, consolidation, and the
degenerate-duration filter (applied once after consolidation and once
again during ISO serialisation). -/
def ownersPipeline (inp : ReconcileInput) : List OwnerEntry :=
  filterPositiveDuration (filterPositiveDuration
    (consolidatedOwners (sortOwners
      (applyRegistration inp.registrations (constructOwners inp) inp.domain.owner inp.now))))

/-- The zero-transfer fallback start date for the current period. -/
def fallbackRegDate (inp : ReconcileInput) : Int :=
  let d :=
    match inp.registrations.head? with
    | some r =>
        if r.registrationDate > 0 then
          if validYear (r.registrationDate * 1000) inp.now then r.registrationDate * 1000
          else inp.now
        else inp.now
    | none =>
      match inp.domain.createdAt with
      | some c =>
          if c > 0 then
            if validYear (c * 1000) inp.now then c * 1000 else inp.now
          else inp.now
      | none => inp.now
  if yearOf d < 2015 then inp.now else d

/-- The ownership-timeline reconciler of the `/api/ens` route: processed
owners list, current-period resolution against the present on-chain
owner (with registration-date advancement), and expiry extraction.
The avatar enrichment step is applied separately (`reconcileWithAvatar`). -/
def reconcile (inp : ReconcileInput) : ReconcileResult :=
  let owners := ownersPipeline inp
  let expiry := expiryDateOf inp.registrations inp.now
  let mrrd := mostRecentRegistrationDate inp.registrations inp.domain.owner inp.now
  match owners.getLast? with
  | some lastOwner =>
    if lowEq lastOwner.address inp.domain.owner then
      let startDate :=
        match mrrd with
        | some m => if lastOwner.startDate < m then m else lastOwner.startDate
        | none => lastOwner.startDate
      { historical := fixHist startDate owners.dropLast
        currentOwner := ⟨inp.domain.owner, startDate, expiry, lastOwner.transactionHash, none⟩
        expiryDate := expiry }
    else
      let lastTransferDate := lastOwner.endDate.getD lastOwner.startDate
      let startDate :=
        match mrrd with
        | some m => if lastTransferDate < m then m else lastTransferDate
        | none => lastTransferDate
      { historical := closeLast owners startDate
        currentOwner := ⟨inp.domain.owner, startDate, expiry, "", none⟩
        expiryDate := expiry }
  | none =>
    { historical := []
      currentOwner := ⟨inp.domain.owner, fallbackRegDate inp, expiry, "", none⟩
      expiryDate := expiry }

/-- Outcome of the external avatar lookup against ensdata.net: the fetch
threw, the response was not ok, the payload had no `avatar_small`, or an
avatar string was returned. -/
inductive AvatarOutcome where
  | fetchFailed
  | httpError
  | noAvatar
  | avatarFound (s : String)
  deriving Repr, DecidableEq

/-- The avatar-enrichment step: only a successful lookup with an avatar
sets the field; every failure is swallowed and leaves the record as is. -/
def enrichAvatar (cur : CurrentOwnerData) : AvatarOutcome → CurrentOwnerData
  | .avatarFound s => { cur with avatar := some s }
  | .fetchFailed => cur
  | .httpError => cur
  | .noAvatar => cur

/-- The reconciler including the avatar-enrichment side effect. -/
def reconcileWithAvatar (inp : ReconcileInput) (outcome : AvatarOutcome) : ReconcileResult :=
  let r := reconcile inp
  { r with currentOwner := enrichAvatar r.currentOwner outcome }

/-- An `ENSOwner` input of the `ENSHistory` component (the fields its
`timeline` builder reads). -/
structure ENSOwnerIn where
  address : String
  startDate : Int
  endDate : Option Int
  transactionHash : String
  isMarketplace : Bool
  marketplaceName : Option String
  deriving Repr, DecidableEq, Inhabited

/-- A built `TimelinePeriod`: the owner it came from, resolved bounds,
the dormant flag, marketplace metadata, and duration in milliseconds. -/
structure TimelinePeriod where
  owner : ENSOwnerIn
  startDate : Int
  endDate : Option Int
  isDormant : Bool
  isMarketplace : Bool
  marketplaceName : Option String
  duration : Int
  deriving Repr, DecidableEq, Inhabited

/-- The builder's current-owner test: same lowercased address and same
start instant as the `currentOwner` prop. -/
def isCurrentOwnerB (c : Option ENSOwnerIn) (o : ENSOwnerIn) : Bool :=
  match c with
  | none => false
  | some cur => lowEq o.address cur.address && o.startDate == cur.startDate

/-- The owners list merged with the current owner, which is appended only
when no listed owner already has its address (case-insensitive) and start. -/
def allOwnersCombined (owners : List ENSOwnerIn) (c : Option ENSOwnerIn) : List ENSOwnerIn :=
  match c with
  | none => owners
  | some cur =>
    if owners.any (fun o => lowEq o.address cur.address && o.startDate == cur.startDate) then
      owners
    else owners ++ [cur]

/-- Stable ascending sort of the combined owners by start instant. -/
def sortOwnersDisplay (owners : List ENSOwnerIn) : List ENSOwnerIn :=
  List.insertionSort (fun a b => a.startDate ≤ b.startDate) owners

/-- The seen-set deduplication by (lowercased address, start) key. -/
def dedupBySeen (seen : List (String × Int)) : List ENSOwnerIn → List ENSOwnerIn
  | [] => []
  | o :: rest =>
    let key := (lowerStr o.address, o.startDate)
    if seen.contains key then dedupBySeen seen rest
    else o :: dedupBySeen (key :: seen) rest

/-- The builder's `finalOwners`: combined, sorted, deduplicated. -/
def finalOwnersList (owners : List ENSOwnerIn) (c : Option ENSOwnerIn) : List ENSOwnerIn :=
  dedupBySeen [] (sortOwnersDisplay (allOwnersCombined owners c))

/-- The display end of one owner period: its own end date, else (for the
current owner) the current owner's end date, else open. -/
def effEnd (c : Option ENSOwnerIn) (o : ENSOwnerIn) : Option Int :=
  match o.endDate with
  | some e => some e
  | none =>
    if isCurrentOwnerB c o then
      match c with
      | some cur => cur.endDate
      | none => none
    else none

/-- The sentinel dormant-gap period between `curEnd` and `nextStart`. -/
def mkDormant (curEnd nextStart : Int) : TimelinePeriod :=
  { owner := ⟨"0x0000000000000000000000000000000000000000", curEnd, some nextStart, "", false, none⟩
    startDate := curEnd
    endDate := some nextStart
    isDormant := true
    isMarketplace := false
    marketplaceName := none
    duration := nextStart - curEnd }

/-- The `timeline` loop over the final owners: each owner period carries
elapsed-to-now duration when it is the current owner, else end-minus-start
(now-minus-start when open); zero-or-negative durations are skipped whole
(including their dormant-gap check), and a dormant period is synthesized
whenever the next owner starts strictly after this period's effective end. -/
def timelinePeriods (c : Option ENSOwnerIn) (now : Int) : List ENSOwnerIn → List TimelinePeriod
  | [] => []
  | o :: rest =>
    let isCur := isCurrentOwnerB c o
    let endDate := effEnd c o
    let duration :=
      if isCur then now - o.startDate
      else
        match endDate with
        | some e => e - o.startDate
        | none => now - o.startDate
    if duration ≤ 0 then timelinePeriods c now rest
    else
      let p : TimelinePeriod :=
        { owner := o
          startDate := o.startDate
          endDate := endDate
          isDormant := false
          isMarketplace := o.isMarketplace
          marketplaceName := o.marketplaceName
          duration := duration }
      match rest with
      | [] => [p]
      | next :: _ =>
        let currentEndDate := endDate.getD now
        if currentEndDate < next.startDate then
          p :: mkDormant currentEndDate next.startDate :: timelinePeriods c now rest
        else p :: timelinePeriods c now rest

/-- The display timeline: dormant-gap-filled period sequence built from
the historical owners, the current owner, and the request instant. -/
def timeline (owners : List ENSOwnerIn) (c : Option ENSOwnerIn) (now : Int) :
    List TimelinePeriod :=
  timelinePeriods c now (finalOwnersList owners c)

/-- Sum of the durations of a display sequence. -/
def sumDurations (tl : List TimelinePeriod) : Int :=
  (tl.map (fun p => p.duration)).sum

/-- The `timelineSpan` total: now minus the minimum period start
(0 for an empty timeline, as in the source's guard). -/
def timelineSpanTotal (tl : List TimelinePeriod) (now : Int) : Int :=
  match tl.map (fun p => p.startDate) with
  | [] => 0
  | s :: ss => now - ss.foldl min s

/-- A transfer row of the leaderboard sample (`/api/leaderboard` route):
domain name (absent when the subgraph row lacks one), block number, owner. -/
structure LBTransfer where
  domainName : Option String
  blockNumber : Nat
  owner : String
  deriving Repr, DecidableEq, Inhabited

/-- Insert a transfer into the insertion-ordered group list under key `k`
(appending to an existing group, else appending a new group). -/
def insertGroup (gs : List (String × List LBTransfer)) (k : String) (t : LBTransfer) :
    List (String × List LBTransfer) :=
  match gs with
  | [] => [(k, [t])]
  | (k', v) :: rest =>
    if k' == k then (k', v ++ [t]) :: rest else (k', v) :: insertGroup rest k t

/-- Group the sampled transfers by lowercased domain name, in encounter
order, skipping rows whose domain name is absent or empty (the source's
truthiness test on `transfer.domain.name`). -/
def groupTransfers (ts : List LBTransfer) : List (String × List LBTransfer) :=
  ts.foldl (fun gs t =>
    match t.domainName with
    | some n => if n = "" then gs else insertGroup gs (lowerStr n) t
    | none => gs) []

/-- Stable ascending sort of one domain's transfers by block number. -/
def sortTransfersByBlock (ts : List LBTransfer) : List LBTransfer :=
  List.insertionSort (fun a b => a.blockNumber ≤ b.blockNumber) ts

/-- The ownership-change counting loop: consecutive same (lowercased)
owners are skipped, and each change from the previous distinct owner
counts one transition. -/
def countGo (prev : Option String) (count : Nat) : List LBTransfer → Nat
  | [] => count
  | t :: rest =>
    let cur := lowerStr t.owner
    match prev with
    | none => countGo (some cur) count rest
    | some p =>
      if cur == p then countGo (some p) count rest
      else countGo (some cur) (count + 1) rest

/-- Ownership transitions of one domain's (sorted) transfer list. -/
def countTransitions (ts : List LBTransfer) : Nat :=
  countGo none 0 ts

/-- One leaderboard row. -/
structure DomainTransferCount where
  name : String
  transferCount : Nat
  deriving Repr, DecidableEq, Inhabited

/-- Per-domain transition counts, keeping only domains with at least one
transition, in group-insertion order. -/
def domainCountsOf (ts : List LBTransfer) : List DomainTransferCount :=
  (groupTransfers ts).foldl (fun acc g =>
    let c := countTransitions (sortTransfersByBlock g.2)
    if 0 < c then acc ++ [⟨g.1, c⟩] else acc) []

/-- Stable descending sort of the leaderboard rows by transition count
(the `b.transferCount - a.transferCount` comparator). -/
def sortCountsDesc (l : List DomainTransferCount) : List DomainTransferCount :=
  List.insertionSort (fun a b => b.transferCount ≤ a.transferCount) l

/-- `domainTransferCounts`: the top ten domains by transition count. -/
def domainTransferCounts (ts : List LBTransfer) : List DomainTransferCount :=
  (sortCountsDesc (domainCountsOf ts)).take 10

/-- Adjacent-duplicate collapse over a string list, keeping the first of
each run (used to characterize the transition count). -/
def dedupAdjGo (prev : String) : List String → List String
  | [] => []
  | s :: rest => if s == prev then dedupAdjGo prev rest else s :: dedupAdjGo s rest

/-- Collapse runs of equal adjacent strings to their first element. -/
def dedupAdjacent : List String → List String
  | [] => []
  | s :: rest => s :: dedupAdjGo s rest

/-- One merge step of the consolidation end-fold (the end-date part of
`mergeInto`). -/
def foldEndStep (acc : Option Int) (e : Option Int) : Option Int :=
  match e with
  | none => none
  | some currentEnd =>
    match acc with
    | none => some currentEnd
    | some lastEnd => if currentEnd > lastEnd then some currentEnd else acc

/-- Folding the consolidation end-merge over a run's end dates. -/
def foldEnd (acc : Option Int) (l : List (Option Int)) : Option Int :=
  l.foldl foldEndStep acc

/-- Closed-form merged end of a list of end dates: undefined when the
final one is undefined; otherwise the maximum defined end among those
after the last undefined one. -/
def specEnd (l : List (Option Int)) : Option Int :=
  match ((l.reverse.takeWhile Option.isSome).reverse).filterMap id with
  | [] => none
  | e :: es => some (es.foldl max e)

/-- Closed-form end of a merged run: undefined when the run's final
member is open; otherwise the maximum defined end among the members after
the run's last open member. -/
def runEndSpec (run : List OwnerEntry) : Option Int :=
  specEnd (run.map (fun o => o.endDate))

/-- Run-by-run characterization of consolidation: each maximal run of
consecutive same-owner (case-insensitive) periods becomes its first
member with `runEndSpec` as end. -/
def consolidateByRuns : List OwnerEntry → List OwnerEntry
  | [] => []
  | o :: rest =>
    { o with
      endDate := runEndSpec (o :: rest.takeWhile (fun x => lowEq o.address x.address)) } ::
      consolidateByRuns (rest.dropWhile (fun x => lowEq o.address x.address))
termination_by l => l.length
decreasing_by
  simp only [List.length_cons]
  exact Nat.lt_succ_of_le (List.dropWhile_sublist _).length_le

/-- The claim's reading of the escrow classification, without the
block-lookup-success gate that the source imposes: table hit, else the
generic label exactly when neighbours exist, both block distances are at
most 10, and the owner differs from both neighbours. -/
def classifyClaimSpec (ts : List TransferRec) (_blocks : List (Option Int)) (i : Nat) :
    Bool × Option String :=
  match MARKETPLACE_CONTRACTS.lookup (lowerStr (ts.getD i default).owner) with
  | some nm => (true, some nm)
  | none =>
    if 0 < i ∧ i < ts.length - 1 ∧
        ((ts.getD i default).blockNumber : Int) - ((ts.getD (i - 1) default).blockNumber : Int) ≤ 10 ∧
        ((ts.getD (i + 1) default).blockNumber : Int) - ((ts.getD i default).blockNumber : Int) ≤ 10 ∧
        lowEq (ts.getD i default).owner (ts.getD (i - 1) default).owner = false ∧
        lowEq (ts.getD i default).owner (ts.getD (i + 1) default).owner = false then
      (true, some "Marketplace")
    else (false, none)

/-- The amended reading: as `classifyClaimSpec`, but the generic-label
heuristic additionally requires the block-timestamp lookups of the
previous, current and next transfers to have succeeded. -/
def classifyAmendedSpec (ts : List TransferRec) (blocks : List (Option Int)) (i : Nat) :
    Bool × Option String :=
  match MARKETPLACE_CONTRACTS.lookup (lowerStr (ts.getD i default).owner) with
  | some nm => (true, some nm)
  | none =>
    if 0 < i ∧ i < ts.length - 1 ∧
        (blocks.getD (i - 1) none).isSome ∧ (blocks.getD i none).isSome ∧
        (blocks.getD (i + 1) none).isSome ∧
        ((ts.getD i default).blockNumber : Int) - ((ts.getD (i - 1) default).blockNumber : Int) ≤ 10 ∧
        ((ts.getD (i + 1) default).blockNumber : Int) - ((ts.getD i default).blockNumber : Int) ≤ 10 ∧
        lowEq (ts.getD i default).owner (ts.getD (i - 1) default).owner = false ∧
        lowEq (ts.getD i default).owner (ts.getD (i + 1) default).owner = false then
      (true, some "Marketplace")
    else (false, none)

/-- The claim's reading of registration reconciliation: seed/adjust from
the most recent registration (by `registrationDate`) instead of the
first-listed one. -/
def applyRegistrationMostRecent (regs : List RegistrationRec) (owners : List OwnerEntry)
    (domainOwner : String) (now : Int) : List OwnerEntry :=
  applyRegistration (sortRegsDesc regs) owners domainOwner now

/-- Whether the reconciler takes the branch in which the last processed
owner matches the present on-chain owner. -/
def matchesBranchB (inp : ReconcileInput) : Bool :=
  match (ownersPipeline inp).getLast? with
  | some lastOwner => lowEq lastOwner.address inp.domain.owner
  | none => false

/-- Well-formedness of a final display list for the gap-completeness
property: every period but the last is a closed, positive, non-current
period ending no later than the next start, and the last is the current
owner's period starting before now. -/
def chainStepsB (c : Option ENSOwnerIn) (now : Int) : List ENSOwnerIn → Bool
  | [] => false
  | [o] => isCurrentOwnerB c o && decide (o.startDate < now)
  | o :: next :: rest =>
    !isCurrentOwnerB c o &&
    (match o.endDate with
     | some e => decide (o.startDate < e) && decide (e ≤ next.startDate)
     | none => false) &&
    chainStepsB c now (next :: rest)

/-- Totality of the descending registration-date comparison. -/
instance : IsTotal RegistrationRec (fun a b => b.registrationDate ≤ a.registrationDate) :=
  ⟨fun a b => le_total b.registrationDate a.registrationDate⟩

/-- Transitivity of the descending registration-date comparison. -/
instance : IsTrans RegistrationRec (fun a b => b.registrationDate ≤ a.registrationDate) :=
  ⟨fun _ _ _ h1 h2 => le_trans h2 h1⟩

/-- Totality of the descending transfer-count comparison. -/
instance : IsTotal DomainTransferCount (fun a b => b.transferCount ≤ a.transferCount) :=
  ⟨fun a b => le_total b.transferCount a.transferCount⟩

/-- Transitivity of the descending transfer-count comparison. -/
instance : IsTrans DomainTransferCount (fun a b => b.transferCount ≤ a.transferCount) :=
  ⟨fun _ _ _ h1 h2 => le_trans h2 h1⟩

/-- The claim-level no-overlap check for a historical list: every entry
with a defined end ends no later than the next entry's start. -/
def histNoOverlapB : List OwnerEntry → Bool
  | [] => true
  | [_] => true
  | a :: b :: rest =>
    (match a.endDate with
     | some e => decide (e ≤ b.startDate)
     | none => true) && histNoOverlapB (b :: rest)

/-- The claim-level abutment check: the last historical period's end
equals the current period's start (vacuous with no historical periods). -/
def lastAbutsCurrentB (r : ReconcileResult) : Bool :=
  match r.historical.getLast? with
  | none => true
  | some h => h.endDate == some r.currentOwner.startDate

/-- Reconciler input with four transfers where the block-timestamp
lookups of the second and fourth transfers failed, so their instants fall
back to linear estimates that land before the successfully fetched
instants of the first and third transfers. -/
def exC1Input : ReconcileInput :=
  { transfers := [⟨"0xa1", 20000000, "t0"⟩, ⟨"0xa2", 20000100, "t1"⟩,
                  ⟨"0xa3", 20000200, "t2"⟩, ⟨"0xa4", 20000300, "t3"⟩]
    registrations := []
    domain := ⟨"0xff", none⟩
    rpc := some [some 1700000000, none, some 1700003000, none]
    now := 1700010000000 }

/-- Reconciler input in the matched branch: two transfers, the second
owner being the present on-chain owner. -/
def exC1W : ReconcileInput :=
  { transfers := [⟨"0xa", 100, "t0"⟩, ⟨"0xb", 200, "t1"⟩]
    registrations := []
    domain := ⟨"0xb", none⟩
    rpc := some [some 1000, some 2000]
    now := 1700000000000 }

/-- Reconciler input with a single transfer whose owner is not the
present on-chain owner (index lag). -/
def exC2Input : ReconcileInput :=
  { transfers := [⟨"0xa", 100, "t0"⟩]
    registrations := []
    domain := ⟨"0xb", none⟩
    rpc := some [some 1000]
    now := 1700000000000 }

/-- A sorted two-entry run for the same owner: an open first period
followed by a closed one. -/
def exC3Run : List OwnerEntry :=
  [⟨"0xa", 0, none, "t1", 1, false, none⟩, ⟨"0xa", 1, some 5, "t2", 2, false, none⟩]

/-- An older registration row listed first. -/
def exC4RegOld : RegistrationRec := ⟨1609459200, 1700000000, "0xa"⟩

/-- A newer (most recent) registration row listed second. -/
def exC4RegNew : RegistrationRec := ⟨1640995200, 1750000000, "0xb"⟩

/-- Three transfers five blocks apart with pairwise distinct owners. -/
def exC5Ts : List TransferRec :=
  [⟨"0xa", 100, "t0"⟩, ⟨"0xb", 105, "t1"⟩, ⟨"0xc", 110, "t2"⟩]

/-- Block lookups for `exC5Ts` where the first lookup failed. -/
def exC5Blocks : List (Option Int) := [none, some 5, some 6]

/-- Two transfers in the same block to the same owner (differing only in
address case), an indexer duplicate. -/
def exC6Ts : List TransferRec := [⟨"0xAb", 100, "t0"⟩, ⟨"0xab", 100, "t1"⟩]

/-- Successful block lookups for `exC6Ts`. -/
def exC6Blocks : List (Option Int) := [some 10, some 10]

/-- Block lookups for `exC6Ts` where the duplicate's lookup failed. -/
def exC6BadBlocks : List (Option Int) := [some 10, none]

/-- A closed historical display period overlapping the current period. -/
def exC7Hist : List ENSOwnerIn := [⟨"0xa", 0, some 100, "t", false, none⟩]

/-- A current display owner starting inside `exC7Hist`'s period. -/
def exC7Cur : ENSOwnerIn := ⟨"0xb", 10, none, "", false, none⟩

/-- A closed historical display period abutting the current period. -/
def exC7WHist : List ENSOwnerIn := [⟨"0xa", 0, some 50, "t", false, none⟩]

/-- A current display owner starting exactly at `exC7WHist`'s end. -/
def exC7WCur : ENSOwnerIn := ⟨"0xb", 50, none, "", false, none⟩

/-- An already-consolidated owners list (adjacent owners differ). -/
def exC8Owners : List OwnerEntry :=
  [⟨"0xa", 0, some 10, "t1", 1, false, none⟩, ⟨"0xb", 10, some 20, "t2", 2, false, none⟩]

/-- A leaderboard sample: one domain with a genuine transition (in two
spellings), one domain with a single transfer, one row with no name. -/
def exLbTs : List LBTransfer :=
  [⟨some "Foo.eth", 5, "0xa"⟩, ⟨some "foo.eth", 3, "0xb"⟩, ⟨some "foo.eth", 4, "0xB"⟩,
   ⟨none, 9, "0xz"⟩, ⟨some "bar.eth", 1, "0xc"⟩]

/-- The consolidation loop leaves a list alone when no adjacent pair
shares an owner with its predecessor. -/
theorem consolGo_of_chain (rest : List OwnerEntry) :
    ∀ o : OwnerEntry,
      List.Chain' (fun a b => lowEq a.address b.address = false) (o :: rest) →
      consolGo o rest = o :: rest := by
  induction rest with
  | nil => intro o _; rfl
  | cons cur rest' ih =>
    intro o h
    rw [List.chain'_cons] at h
    unfold consolGo
    rw [h.1]
    simp only [Bool.false_eq_true, if_false]
    rw [ih cur h.2]

/-- Claim C8: applying the consolidation step to a sequence in which no
two consecutive periods share the same owner address (case-insensitively)
returns the sequence unchanged. -/
theorem C8_theorem (xs : List OwnerEntry)
    (h : List.Chain' (fun a b => lowEq a.address b.address = false) xs) :
    consolidatedOwners xs = xs := by
  cases xs with
  | nil => rfl
  | cons o rest => exact consolGo_of_chain rest o h

/-- Witness for C8 on a concrete already-consolidated two-entry list. -/
theorem C8_witness : consolidatedOwners exC8Owners = exC8Owners :=
  C8_theorem exC8Owners (by
    simp only [exC8Owners, List.chain'_cons, List.chain'_singleton, and_true]
    decide)

/-- The reconciler never sets an avatar itself. -/
theorem reconcile_avatar_none (inp : ReconcileInput) :
    (reconcile inp).currentOwner.avatar = none := by
  simp only [reconcile]
  split
  · split <;> rfl
  · rfl

/-- Claim C9: every failing avatar-lookup outcome leaves the reconciler's
result exactly as if the lookup had been skipped, with the avatar field
absent. -/
theorem C9_theorem (inp : ReconcileInput) (outcome : AvatarOutcome)
    (h : outcome = AvatarOutcome.fetchFailed ∨ outcome = AvatarOutcome.httpError ∨
      outcome = AvatarOutcome.noAvatar) :
    reconcileWithAvatar inp outcome = reconcile inp ∧
    (reconcileWithAvatar inp outcome).currentOwner.avatar = none := by
  have hsame : reconcileWithAvatar inp outcome = reconcile inp := by
    rcases h with h | h | h <;> subst h <;> rfl
  refine ⟨hsame, ?_⟩
  rw [hsame]
  exact reconcile_avatar_none inp

/-- Witness for C9: a failed avatar fetch on a concrete input. -/
theorem C9_witness :
    reconcileWithAvatar exC2Input AvatarOutcome.fetchFailed = reconcile exC2Input :=
  (C9_theorem exC2Input AvatarOutcome.fetchFailed (Or.inl rfl)).1

/-- Counterexample to claim C1: on `exC1Input` (two failed block
lookups interleaved with two successful ones, present owner absent from
the transfer log) the returned historical periods overlap — the first
ends at 1700003000000, after the second starts at 1678218000000 — so the
claimed no-overlap invariant is false. -/
theorem C1_counterexample :
    (reconcile exC1Input).historical.map (fun o => (o.startDate, o.endDate)) =
      [((1678215600000 : Int), some (1700003000000 : Int)),
       ((1678218000000 : Int), some (1678218000000 : Int))] ∧
    histNoOverlapB (reconcile exC1Input).historical = false := by
  constructor
  · decide
  · decide

/-- Counterexample to claim C2: on `exC2Input` (index lag: the single
transfer's owner is not the present owner) the reconciler returns a
historical period whose end equals its start — a zero, not strictly
positive, duration. -/
theorem C2_counterexample :
    (reconcile exC2Input).historical.map (fun o => (o.startDate, o.endDate)) =
      [((1000000 : Int), some (1000000 : Int))] ∧
    ¬ (0 : Int) < 1000000 - 1000000 := by
  constructor
  · decide
  · decide

/-- Counterexample to claim C3: the first member of the run `exC3Run`
has an undefined end, yet the merged period is closed (at the second
member's end), so "an undefined end on any merged member makes the merged
period open" is false. -/
theorem C3_counterexample :
    consolidatedOwners exC3Run = [⟨"0xa", 0, some 5, "t1", 1, false, none⟩] ∧
    (exC3Run.getD 0 default).endDate = none ∧
    ((consolidatedOwners exC3Run).getD 0 default).endDate ≠ none := by
  refine ⟨by decide, by decide, by decide⟩

/-- Counterexample to claim C4: with the most recent registration listed
second, the seeding step (which reads the first-listed record) produces
no period, while seeding from the most recent record would seed one — the
reconciler does not use the most recent record there. -/
theorem C4_counterexample :
    applyRegistration [exC4RegOld, exC4RegNew] [] "0xb" 1700000000000 = [] ∧
    applyRegistrationMostRecent [exC4RegOld, exC4RegNew] [] "0xb" 1700000000000 =
      [⟨"0xb", 1640995200000, none, "", 0, false, none⟩] ∧
    (sortRegsDesc [exC4RegOld, exC4RegNew]).head? = some exC4RegNew := by
  refine ⟨by decide, by decide, by decide⟩

/-- Counterexample to claim C5: on `exC5Ts` the middle transfer has both
neighbours, both block distances are 5 ≤ 10, and its owner differs from
both neighbours, so the claim demands the generic marketplace label; but
the previous transfer's block lookup failed, and the code classifies it
as not-marketplace. -/
theorem C5_counterexample :
    classifyTransfer exC5Ts exC5Blocks 1 = (false, none) ∧
    classifyClaimSpec exC5Ts exC5Blocks 1 = (true, some "Marketplace") := by
  refine ⟨by decide, by decide⟩

/-- Counterexample to claim C6: with the duplicate's block lookup failed,
the transfer sharing block number and owner with its predecessor is not
dropped — both indices survive and two period entries open. -/
theorem C6_counterexample :
    keptIdx exC6Ts exC6BadBlocks = [0, 1] ∧
    (exC6Ts.getD 0 default).blockNumber = (exC6Ts.getD 1 default).blockNumber ∧
    lowEq (exC6Ts.getD 0 default).owner (exC6Ts.getD 1 default).owner = true ∧
    (constructOwnersRpc exC6Ts exC6BadBlocks).length = 2 := by
  refine ⟨by decide, by decide, by decide, by decide⟩

/-- Counterexample to claim C7: on an overlapping input (historical
period [0, 100], current period starting at 10, now = 200) the display
durations sum to 290, but now minus the earliest start is 200. -/
theorem C7_counterexample :
    sumDurations (timeline exC7Hist (some exC7Cur) 200) = 290 ∧
    timelineSpanTotal (timeline exC7Hist (some exC7Cur) 200) 200 = 200 ∧
    sumDurations (timeline exC7Hist (some exC7Cur) 200) ≠
      timelineSpanTotal (timeline exC7Hist (some exC7Cur) 200) 200 := by
  refine ⟨by decide, by decide, by decide⟩

/-- Claim C6 (amended): a transfer sharing block number and
case-insensitive owner with its immediately preceding transfer is dropped
by the duplicate-suppression pass whenever the block-timestamp lookups of
both transfers succeeded. -/
theorem C6_amended (ts : List TransferRec) (blocks : List (Option Int)) (i : Nat)
    (h0 : 0 < i) (_hi : i < ts.length)
    (hb1 : (blocks.getD (i - 1) none).isSome = true)
    (hb2 : (blocks.getD i none).isSome = true)
    (hbn : (ts.getD (i - 1) default).blockNumber = (ts.getD i default).blockNumber)
    (how : lowEq (ts.getD (i - 1) default).owner (ts.getD i default).owner = true) :
    i ∉ keptIdx ts blocks := by
  intro hmem
  have hkeep := (List.mem_filter.mp hmem).2
  rw [Bool.not_eq_true'] at hkeep
  unfold dupSkip at hkeep
  simp [h0] at hkeep
  simp only [List.getD_eq_getElem?_getD] at hb1 hb2 hbn how
  rw [hkeep hb1 hb2 hbn] at how
  exact Bool.false_ne_true how

/-- Witness for C6 on the concrete duplicate pair with successful
lookups. -/
theorem C6_witness : 1 ∉ keptIdx exC6Ts exC6Blocks :=
  C6_amended exC6Ts exC6Blocks 1 (by decide) (by decide) (by decide) (by decide)
    (by decide) (by decide)

/-- Claim C4 (amended): the registration record used for the expiry date
and for advancing the current period's start is the most recent by
`registrationDate` (the head of the descending sort is maximal), while
the seeding/adjustment of the earliest period depends only on the
first-listed registration record. -/
theorem C4_amended :
    (∀ (regs : List RegistrationRec) (r : RegistrationRec),
        (sortRegsDesc regs).head? = some r →
        r ∈ regs ∧ ∀ r' ∈ regs, r'.registrationDate ≤ r.registrationDate) ∧
    (∀ (regs1 regs2 : List RegistrationRec) (owners : List OwnerEntry)
        (dOwner : String) (now : Int), regs1.head? = regs2.head? →
        applyRegistration regs1 owners dOwner now = applyRegistration regs2 owners dOwner now) := by
  constructor
  · intro regs r hr
    have hperm : List.Perm (sortRegsDesc regs) regs := List.perm_insertionSort _ regs
    have hsorted :
        List.Sorted (fun a b => b.registrationDate ≤ a.registrationDate) (sortRegsDesc regs) :=
      List.sorted_insertionSort _ regs
    cases hs : sortRegsDesc regs with
    | nil => rw [hs] at hr; exact absurd hr (by simp)
    | cons a t =>
      rw [hs] at hr
      simp only [List.head?_cons, Option.some.injEq] at hr
      subst hr
      rw [hs] at hperm hsorted
      constructor
      · exact hperm.mem_iff.mp (List.mem_cons_self a t)
      · intro r' hr'
        have : r' ∈ a :: t := hperm.mem_iff.mpr hr'
        rcases List.mem_cons.mp this with h | h
        · subst h; exact le_refl _
        · exact List.rel_of_sorted_cons hsorted r' h
  · intro regs1 regs2 owners dOwner now h
    cases regs1 with
    | nil =>
      cases regs2 with
      | nil => rfl
      | cons b t2 => simp at h
    | cons a t1 =>
      cases regs2 with
      | nil => simp at h
      | cons b t2 =>
        simp only [List.head?_cons, Option.some.injEq] at h
        subst h
        rfl

/-- Witness for C4: the head of the descending sort of the concrete
registration pair is the newer record, and the older one's date is no
greater. -/
theorem C4_witness :
    (sortRegsDesc [exC4RegOld, exC4RegNew]).head? = some exC4RegNew ∧
    exC4RegOld.registrationDate ≤ exC4RegNew.registrationDate := by
  have h : (sortRegsDesc [exC4RegOld, exC4RegNew]).head? = some exC4RegNew := by decide
  exact ⟨h, (C4_amended.1 [exC4RegOld, exC4RegNew] exC4RegNew h).2 exC4RegOld (by decide)⟩

/-- Claim C5 (amended): the in-loop classification equals the table
lookup, else the generic marketplace label exactly when both neighbours
exist, all three block-timestamp lookups succeeded, both block distances
are at most 10, and the owner differs from both neighbours. -/
theorem C5_amended (ts : List TransferRec) (blocks : List (Option Int)) (i : Nat) :
    classifyTransfer ts blocks i = classifyAmendedSpec ts blocks i := by
  unfold classifyTransfer classifyAmendedSpec isMarketplaceContract
  simp only [List.getD_eq_getElem?_getD]
  cases hm : MARKETPLACE_CONTRACTS.lookup (lowerStr ((ts[i]?).getD default).owner) with
  | some nm => simp [hm]
  | none =>
    simp only [hm]
    split_ifs <;> first | rfl | tauto

theorem timelinePeriods_pos (c : Option ENSOwnerIn) (now : Int) :
    ∀ (L : List ENSOwnerIn) (p : TimelinePeriod),
      p ∈ timelinePeriods c now L → 0 < p.duration := by
  intro L
  induction L with
  | nil => intro p hp; simp [timelinePeriods] at hp
  | cons o rest ih =>
    intro p hp
    simp only [timelinePeriods] at hp
    cases hcur : isCurrentOwnerB c o <;>
      simp only [hcur, Bool.false_eq_true, if_true, if_false] at hp <;>
      split at hp
    case false.isTrue => exact ih p hp
    case false.isFalse hdur =>
      push_neg at hdur
      split at hp
      · rw [List.mem_singleton] at hp; subst hp; exact hdur
      · split at hp
        · rename_i hgap
          rcases List.mem_cons.mp hp with rfl | hp'
          · exact hdur
          · rcases List.mem_cons.mp hp' with rfl | hp''
            · simpa [mkDormant] using hgap
            · exact ih p hp''
        · rcases List.mem_cons.mp hp with rfl | hp'
          · exact hdur
          · exact ih p hp'
    case true.isTrue => exact ih p hp
    case true.isFalse hdur =>
      push_neg at hdur
      split at hp
      · rw [List.mem_singleton] at hp; subst hp; exact hdur
      · split at hp
        · rename_i hgap
          rcases List.mem_cons.mp hp with rfl | hp'
          · exact hdur
          · rcases List.mem_cons.mp hp' with rfl | hp''
            · simpa [mkDormant] using hgap
            · exact ih p hp''
        · rcases List.mem_cons.mp hp with rfl | hp'
          · exact hdur
          · exact ih p hp'

/-- Claim C2 (amended): every period produced by the display builder has
strictly positive duration, and every closed entry surviving the
reconciler's degenerate-duration filter has strictly positive duration
(the later current-period-resolution step can still close the final
historical period at zero width, as the counterexample shows). -/
theorem C2_amended :
    (∀ (owners : List ENSOwnerIn) (c : Option ENSOwnerIn) (now : Int) (p : TimelinePeriod),
        p ∈ timeline owners c now → 0 < p.duration) ∧
    (∀ (l : List OwnerEntry) (o : OwnerEntry) (e : Int),
        o ∈ filterPositiveDuration l → o.endDate = some e → 0 < e - o.startDate) := by
  constructor
  · intro owners c now p hp
    exact timelinePeriods_pos c now (finalOwnersList owners c) p hp
  · intro l o e ho he
    have hpred := (List.mem_filter.mp ho).2
    rw [he] at hpred
    simpa using hpred

/-- Witness for C2 on a concrete display input. -/
theorem C2_witness :
    (0 : Int) < ((timeline exC7WHist (some exC7WCur) 100).headD default).duration :=
  C2_amended.1 exC7WHist (some exC7WCur) 100 _ (by decide)

/-- The repair pass keeps the list shape and never changes start instants. -/
theorem fixHist_cons (cs : Int) (o : OwnerEntry) (l : List OwnerEntry) :
    ∃ o' l', fixHist cs (o :: l) = o' :: l' ∧ o'.startDate = o.startDate := by
  cases l with
  | nil =>
    cases ho : o.endDate with
    | none => exact ⟨{ o with endDate := some cs }, [], by simp [fixHist, ho], rfl⟩
    | some e => exact ⟨o, [], by simp [fixHist, ho], rfl⟩
  | cons next rest =>
    cases ho : o.endDate with
    | none =>
      exact ⟨{ o with endDate := some next.startDate }, fixHist cs (next :: rest),
        by simp [fixHist, ho], rfl⟩
    | some e =>
      by_cases hlt : next.startDate < e
      · exact ⟨{ o with endDate := some next.startDate }, fixHist cs (next :: rest),
          by simp [fixHist, ho, hlt], rfl⟩
      · exact ⟨o, fixHist cs (next :: rest), by simp [fixHist, ho, hlt], rfl⟩

/-- The repaired historical list is pairwise non-overlapping: every entry
carries a defined end no later than the next entry's start. -/
theorem chain'_fixHist (cs : Int) :
    ∀ l : List OwnerEntry,
      List.Chain' (fun a b => ∃ e, a.endDate = some e ∧ e ≤ b.startDate) (fixHist cs l) := by
  intro l
  induction l with
  | nil => simp [fixHist]
  | cons o rest ih =>
    cases rest with
    | nil =>
      cases ho : o.endDate with
      | none => simp [fixHist, ho]
      | some e => simp [fixHist, ho]
    | cons next rest' =>
      have hstep : fixHist cs (o :: next :: rest') =
          (match o.endDate with
           | some e =>
               if next.startDate < e then { o with endDate := some next.startDate } else o
           | none => { o with endDate := some next.startDate }) :: fixHist cs (next :: rest') := rfl
      rw [hstep]
      obtain ⟨o', l', heq, hstart⟩ := fixHist_cons cs next rest'
      refine List.chain'_cons'.mpr ⟨?_, ih⟩
      intro h hh
      rw [heq] at hh
      simp only [List.head?_cons, Option.mem_def, Option.some.injEq] at hh
      subst hh
      rw [hstart]
      cases ho : o.endDate with
      | none => exact ⟨next.startDate, rfl, le_refl _⟩
      | some e =>
        by_cases hlt : next.startDate < e
        · simp only [ho, hlt, if_true]
          exact ⟨next.startDate, rfl, le_refl _⟩
        · simp only [ho, hlt, if_false]
          exact ⟨e, rfl, le_of_not_lt hlt⟩

/-- A final entry with no end date is closed by the repair pass exactly
at the current period's start. -/
theorem fixHist_getLast_open (cs : Int) :
    ∀ (l : List OwnerEntry) (lastO : OwnerEntry), l.getLast? = some lastO →
      lastO.endDate = none →
      (fixHist cs l).getLast? = some { lastO with endDate := some cs } := by
  intro l
  induction l with
  | nil => intro lastO h; simp at h
  | cons o rest ih =>
    intro lastO h hopen
    cases rest with
    | nil =>
      simp only [List.getLast?_singleton, Option.some.injEq] at h
      subst h
      simp [fixHist, hopen]
    | cons next rest' =>
      rw [List.getLast?_cons_cons] at h
      have hstep : fixHist cs (o :: next :: rest') =
          (match o.endDate with
           | some e =>
               if next.startDate < e then { o with endDate := some next.startDate } else o
           | none => { o with endDate := some next.startDate }) :: fixHist cs (next :: rest') := rfl
      rw [hstep]
      obtain ⟨o', l', heq, _⟩ := fixHist_cons cs next rest'
      rw [heq, List.getLast?_cons_cons, ← heq]
      exact ih lastO h hopen

/-- Claim C1 (amended): when the last processed owner matches the present
on-chain owner, consecutive historical periods returned by the reconciler
satisfy end at most next start, and a previously open final historical
period is closed exactly at the current period's start.  (In the
mismatched branch the invariant fails, per the counterexample.) -/
theorem C1_amended (inp : ReconcileInput) (h : matchesBranchB inp = true) :
    List.Chain' (fun a b => ∃ e, a.endDate = some e ∧ e ≤ b.startDate)
      (reconcile inp).historical ∧
    (∀ lastO : OwnerEntry, ((ownersPipeline inp).dropLast).getLast? = some lastO →
      lastO.endDate = none →
      (reconcile inp).historical.getLast? =
        some { lastO with endDate := some (reconcile inp).currentOwner.startDate }) := by
  unfold matchesBranchB at h
  cases hl : (ownersPipeline inp).getLast? with
  | none => rw [hl] at h; simp at h
  | some lastOwner =>
    rw [hl] at h
    have h' : lowEq lastOwner.address inp.domain.owner = true := h
    have hrec : reconcile inp =
        { historical := fixHist
            (match mostRecentRegistrationDate inp.registrations inp.domain.owner inp.now with
             | some m => if lastOwner.startDate < m then m else lastOwner.startDate
             | none => lastOwner.startDate) (ownersPipeline inp).dropLast
          currentOwner :=
            ⟨inp.domain.owner,
             (match mostRecentRegistrationDate inp.registrations inp.domain.owner inp.now with
              | some m => if lastOwner.startDate < m then m else lastOwner.startDate
              | none => lastOwner.startDate),
             expiryDateOf inp.registrations inp.now, lastOwner.transactionHash, none⟩
          expiryDate := expiryDateOf inp.registrations inp.now } := by
      simp only [reconcile, hl, h', if_true]
    rw [hrec]
    constructor
    · exact chain'_fixHist _ _
    · intro lastO hlast hopen
      exact fixHist_getLast_open _ _ lastO hlast hopen

/-- Witness for C1 on a concrete matched-branch input. -/
theorem C1_witness :
    List.Chain' (fun a b => ∃ e, a.endDate = some e ∧ e ≤ b.startDate)
      (reconcile exC1W).historical :=
  (C1_amended exC1W (by decide)).1

/-- The closed-form merged end of a single end date is that end date. -/
theorem specEnd_single (x : Option Int) : specEnd [x] = x := by
  cases x <;> rfl

/-- Appending an open member reopens the closed-form merged end. -/
theorem specEnd_append_none (l : List (Option Int)) : specEnd (l ++ [none]) = none := by
  simp [specEnd, List.reverse_append]

/-- Appending a closed member caps the closed-form merged end. -/
theorem specEnd_append_some (l : List (Option Int)) (c : Int) :
    specEnd (l ++ [some c]) =
      some (match specEnd l with | none => c | some d => max d c) := by
  unfold specEnd
  rw [List.reverse_append]
  simp only [List.reverse_cons, List.reverse_nil, List.nil_append, List.singleton_append,
    List.takeWhile_cons, Option.isSome_some, if_true, List.reverse_cons, List.filterMap_append]
  cases hP : ((l.reverse.takeWhile Option.isSome).reverse).filterMap id with
  | nil => simp
  | cons e es => simp [List.foldl_append]

/-- The consolidation end-fold equals its closed form. -/
theorem foldEnd_eq_specEnd (a : Option Int) (l : List (Option Int)) :
    foldEnd a l = specEnd (a :: l) := by
  induction l using List.reverseRecOn with
  | nil => cases a <;> rfl
  | append_singleton t x ih =>
    have hfold : foldEnd a (t ++ [x]) = foldEndStep (foldEnd a t) x := by
      simp [foldEnd, List.foldl_append]
    rw [hfold, ih]
    have hcons : a :: (t ++ [x]) = (a :: t) ++ [x] := by simp
    rw [hcons]
    cases x with
    | none => rw [specEnd_append_none]; rfl
    | some c =>
      rw [specEnd_append_some]
      cases hs : specEnd (a :: t) with
      | none => rfl
      | some d =>
        simp only [foldEndStep]
        by_cases hlt : c > d
        · rw [if_pos hlt]
          simp [max_eq_right (le_of_lt hlt)]
        · rw [if_neg hlt]
          simp [max_eq_left (le_of_not_lt hlt)]

/-- Merging touches only the end date, via one end-fold step. -/
theorem mergeInto_eq (a b : OwnerEntry) :
    mergeInto a b = { a with endDate := foldEndStep a.endDate b.endDate } := by
  unfold mergeInto foldEndStep
  cases hb : b.endDate with
  | none => rfl
  | some e =>
    cases ha : a.endDate with
    | none => rfl
    | some e2 =>
      by_cases h : e > e2
      · simp [h]
      · simp [h, ← ha]

/-- The consolidation loop consumes exactly the maximal same-owner run. -/
theorem consolGo_runs :
    ∀ (n : Nat) (l : List OwnerEntry), l.length ≤ n → ∀ o : OwnerEntry,
      consolGo o l =
        { o with
          endDate := runEndSpec (o :: l.takeWhile (fun x => lowEq o.address x.address)) } ::
          consolidateByRuns (l.dropWhile (fun x => lowEq o.address x.address)) := by
  intro n
  induction n with
  | zero =>
    intro l hl o
    have hnil : l = [] := List.length_eq_zero.mp (Nat.le_zero.mp hl)
    subst hnil
    simp [consolGo, consolidateByRuns, runEndSpec, specEnd_single]
  | succ n ih =>
    intro l hl o
    cases l with
    | nil => simp [consolGo, consolidateByRuns, runEndSpec, specEnd_single]
    | cons cur rest =>
      have hrest : rest.length ≤ n := by
        simpa using Nat.succ_le_succ_iff.mp (by simpa using hl)
      by_cases hc : lowEq o.address cur.address = true
      · simp only [consolGo]
        rw [if_pos hc, mergeInto_eq, ih rest hrest]
        dsimp only
        simp only [List.takeWhile_cons, List.dropWhile_cons, hc, if_true]
        have hend :
            runEndSpec ({ o with endDate := foldEndStep o.endDate cur.endDate } ::
                rest.takeWhile (fun x => lowEq o.address x.address)) =
              runEndSpec (o :: cur :: rest.takeWhile (fun x => lowEq o.address x.address)) := by
          simp only [runEndSpec, List.map_cons]
          rw [← foldEnd_eq_specEnd, ← foldEnd_eq_specEnd]
          simp [foldEnd]
        rw [hend]
      · have hc' : lowEq o.address cur.address = false := Bool.eq_false_iff.mpr hc
        simp only [consolGo]
        rw [if_neg hc, ih rest hrest cur]
        simp only [List.takeWhile_cons, List.dropWhile_cons, hc', Bool.false_eq_true, if_false]
        rw [consolidateByRuns]
        simp [runEndSpec, specEnd_single]

/-- Claim C3 (amended): consolidation merges each maximal run of
consecutive same-owner (case-insensitive) periods into its first member,
whose end is `runEndSpec` of the run: open exactly when the run's final
member is open, else the latest defined end after the run's last open
member (an earlier member's open end is overridden by a later defined
end, per the counterexample). -/
theorem C3_amended (xs : List OwnerEntry) : consolidatedOwners xs = consolidateByRuns xs := by
  cases xs with
  | nil => simp [consolidatedOwners, consolidateByRuns]
  | cons o rest =>
    have h := consolGo_runs rest.length rest (le_refl _) o
    rw [consolidatedOwners, h, consolidateByRuns]

/-- Folding min over values no smaller than the seed returns the seed. -/
theorem foldl_min_eq (l : List Int) : ∀ a : Int, (∀ x ∈ l, a ≤ x) → l.foldl min a = a := by
  induction l with
  | nil => intro a _; rfl
  | cons x t ih =>
    intro a h
    simp only [List.foldl_cons]
    rw [min_eq_left (h x (List.mem_cons_self x t))]
    exact ih a (fun y hy => h y (List.mem_cons_of_mem x hy))

/-- On a well-formed final owners list, the emitted durations telescope
to now minus the first start, the sequence is nonempty, it opens at the
first start, and every emitted period starts no earlier. -/
theorem timelinePeriods_chain_sum (c : Option ENSOwnerIn) (now : Int) :
    ∀ (rest : List ENSOwnerIn) (o : ENSOwnerIn),
      chainStepsB c now (o :: rest) = true →
      sumDurations (timelinePeriods c now (o :: rest)) = now - o.startDate ∧
      timelinePeriods c now (o :: rest) ≠ [] ∧
      ((timelinePeriods c now (o :: rest)).headD default).startDate = o.startDate ∧
      ∀ p ∈ timelinePeriods c now (o :: rest), o.startDate ≤ p.startDate := by
  intro rest
  induction rest with
  | nil =>
    intro o h
    simp only [chainStepsB, Bool.and_eq_true, decide_eq_true_eq] at h
    obtain ⟨hcur, hlt⟩ := h
    have hdur : ¬ (now - o.startDate ≤ 0) := by omega
    have hT : timelinePeriods c now [o] =
        [{ owner := o, startDate := o.startDate, endDate := effEnd c o, isDormant := false,
           isMarketplace := o.isMarketplace, marketplaceName := o.marketplaceName,
           duration := now - o.startDate }] := by
      simp [timelinePeriods, hcur, hdur]
    rw [hT]
    refine ⟨by simp [sumDurations], by simp, by simp, ?_⟩
    intro p hp
    rw [List.mem_singleton] at hp
    subst hp
    exact le_refl _
  | cons next rest' ih =>
    intro o h
    simp only [chainStepsB, Bool.and_eq_true, Bool.not_eq_true'] at h
    obtain ⟨⟨hcur, hmatch⟩, hchain⟩ := h
    cases ho : o.endDate with
    | none => rw [ho] at hmatch; exact absurd hmatch (by simp)
    | some e =>
      rw [ho] at hmatch
      simp only [Bool.and_eq_true, decide_eq_true_eq] at hmatch
      obtain ⟨hse, hen⟩ := hmatch
      have heff : effEnd c o = some e := by simp [effEnd, ho]
      have hdur : ¬ (e - o.startDate ≤ 0) := by omega
      have hT : timelinePeriods c now (o :: next :: rest') =
          ({ owner := o, startDate := o.startDate, endDate := some e, isDormant := false,
             isMarketplace := o.isMarketplace, marketplaceName := o.marketplaceName,
             duration := e - o.startDate } : TimelinePeriod) ::
          (if e < next.startDate then
             mkDormant e next.startDate :: timelinePeriods c now (next :: rest')
           else timelinePeriods c now (next :: rest')) := by
        rw [timelinePeriods]
        simp only [heff, hcur, Bool.false_eq_true, if_false, Option.getD_some]
        rw [if_neg hdur]
        split <;> rfl
      obtain ⟨ihsum, ihne, ihhead, ihall⟩ := ih next hchain
      rw [hT]
      by_cases hgap : e < next.startDate
      · rw [if_pos hgap]
        refine ⟨?_, by simp, by simp, ?_⟩
        · simp only [sumDurations, List.map_cons, List.sum_cons, mkDormant] at ihsum ⊢
          omega
        · intro p hp
          rcases List.mem_cons.mp hp with rfl | hp'
          · exact le_refl _
          · rcases List.mem_cons.mp hp' with rfl | hp''
            · simp only [mkDormant]
              omega
            · have h1 := ihall p hp''
              omega
      · rw [if_neg hgap]
        refine ⟨?_, by simp, by simp, ?_⟩
        · simp only [sumDurations, List.map_cons, List.sum_cons] at ihsum ⊢
          omega
        · intro p hp
          rcases List.mem_cons.mp hp with rfl | hp'
          · exact le_refl _
          · have h1 := ihall p hp'
            omega

/-- Claim C7 (amended): whenever the deduplicated, sorted display list is
well formed — every period but the last is a closed, positive-length,
non-current period ending no later than the next start, and the last is
the current owner starting before now — the display durations, dormant
gaps included, sum exactly to now minus the earliest start.  (Overlapping
inputs violate the unrestricted claim, per the counterexample.) -/
theorem C7_amended (owners : List ENSOwnerIn) (c : Option ENSOwnerIn) (now : Int)
    (h : chainStepsB c now (finalOwnersList owners c) = true) :
    sumDurations (timeline owners c now) =
      timelineSpanTotal (timeline owners c now) now := by
  unfold timeline
  cases hL : finalOwnersList owners c with
  | nil => rw [hL] at h; simp [chainStepsB] at h
  | cons o rest =>
    rw [hL] at h
    obtain ⟨hsum, hne, hhead, hall⟩ := timelinePeriods_chain_sum c now rest o h
    cases hT : timelinePeriods c now (o :: rest) with
    | nil => exact absurd hT hne
    | cons p ps =>
      rw [hT] at hsum hhead hall
      simp only [List.headD_cons] at hhead
      unfold timelineSpanTotal
      simp only [List.map_cons]
      have hmin : (ps.map (fun q => q.startDate)).foldl min p.startDate = p.startDate := by
        apply foldl_min_eq
        intro x hx
        obtain ⟨q, hq, hqx⟩ := List.mem_map.mp hx
        rw [← hqx, hhead]
        exact hall q (List.mem_cons_of_mem _ hq)
      rw [hmin, hhead, hsum]

/-- Witness for C7 on a concrete well-formed display input. -/
theorem C7_witness :
    chainStepsB (some exC7WCur) 100 (finalOwnersList exC7WHist (some exC7WCur)) = true ∧
    sumDurations (timeline exC7WHist (some exC7WCur) 100) =
      timelineSpanTotal (timeline exC7WHist (some exC7WCur) 100) 100 :=
  ⟨by decide, C7_amended exC7WHist (some exC7WCur) 100 (by decide)⟩

/-- The transition-counting loop counts the collapsed distinct-owner runs. -/
theorem countGo_dedup (l : List LBTransfer) :
    ∀ (p : String) (cnt : Nat),
      countGo (some p) cnt l = cnt + (dedupAdjGo p (l.map (fun t => lowerStr t.owner))).length := by
  induction l with
  | nil => intro p cnt; simp [countGo, dedupAdjGo]
  | cons t rest ih =>
    intro p cnt
    simp only [countGo, List.map_cons, dedupAdjGo]
    by_cases h : (lowerStr t.owner == p) = true
    · rw [if_pos h, if_pos h, ih p cnt]
    · rw [if_neg h, if_neg h, ih (lowerStr t.owner) (cnt + 1)]
      simp only [List.length_cons]
      omega

/-- Transition count of a nonempty list equals the length of its
adjacent-duplicate-collapsed lowercased owner sequence, minus one. -/
theorem countTransitions_dedup (g : List LBTransfer) (hg : g ≠ []) :
    countTransitions g = (dedupAdjacent (g.map (fun t => lowerStr t.owner))).length - 1 := by
  cases g with
  | nil => exact absurd rfl hg
  | cons t rest =>
    simp only [countTransitions, countGo, List.map_cons, dedupAdjacent]
    rw [countGo_dedup]
    simp

/-- Every leaderboard count row comes from a transfer group of its name,
with the sorted transition count, and is positive. -/
theorem domainCountsOf_spec (ts : List LBTransfer) :
    ∀ d ∈ domainCountsOf ts, ∃ g, (d.name, g) ∈ groupTransfers ts ∧
      d.transferCount = countTransitions (sortTransfersByBlock g) ∧ 0 < d.transferCount := by
  have key : ∀ (gl : List (String × List LBTransfer)) (acc : List DomainTransferCount)
      (d : DomainTransferCount),
      d ∈ gl.foldl (fun acc g =>
        let c := countTransitions (sortTransfersByBlock g.2)
        if 0 < c then acc ++ [⟨g.1, c⟩] else acc) acc →
      d ∈ acc ∨ ∃ g, (d.name, g) ∈ gl ∧
        d.transferCount = countTransitions (sortTransfersByBlock g) ∧ 0 < d.transferCount := by
    intro gl
    induction gl with
    | nil => intro acc d hd; exact Or.inl hd
    | cons hd tl ih =>
      intro acc d hmem
      simp only [List.foldl_cons] at hmem
      rcases ih _ d hmem with hacc | ⟨g, hg, hcount, hpos⟩
      · by_cases hc : 0 < countTransitions (sortTransfersByBlock hd.2)
        · simp only [if_pos hc] at hacc
          rcases List.mem_append.mp hacc with h1 | h2
          · exact Or.inl h1
          · rw [List.mem_singleton] at h2
            subst h2
            exact Or.inr ⟨hd.2, Prod.mk.eta ▸ List.mem_cons_self hd tl, rfl, hc⟩
        · simp only [if_neg hc] at hacc
          exact Or.inl hacc
      · exact Or.inr ⟨g, List.mem_cons_of_mem _ hg, hcount, hpos⟩
  intro d hd
  rcases key (groupTransfers ts) [] d hd with h | h
  · simp at h
  · exact h

/-- Claim C10: the leaderboard reducer returns at most ten rows, in
descending transition-count order, each with a positive count computed as
the collapsed-transition count of its (lowercased-name) transfer group
sorted by block number, and every grouped domain left out has a count no
higher than any returned row. -/
theorem C10_theorem (ts : List LBTransfer) :
    (domainTransferCounts ts).length ≤ 10 ∧
    List.Pairwise (fun a b => b.transferCount ≤ a.transferCount) (domainTransferCounts ts) ∧
    (∀ e ∈ domainTransferCounts ts, 0 < e.transferCount) ∧
    (∀ e ∈ domainTransferCounts ts, ∃ g, (e.name, g) ∈ groupTransfers ts ∧
        e.transferCount = countTransitions (sortTransfersByBlock g)) ∧
    (∀ d ∈ domainCountsOf ts, d ∉ domainTransferCounts ts →
        ∀ e ∈ domainTransferCounts ts, d.transferCount ≤ e.transferCount) ∧
    (∀ g : List LBTransfer, g ≠ [] →
        countTransitions g = (dedupAdjacent (g.map (fun t => lowerStr t.owner))).length - 1) := by
  have hsorted : List.Pairwise (fun a b => b.transferCount ≤ a.transferCount)
      (sortCountsDesc (domainCountsOf ts)) := List.sorted_insertionSort _ _
  have hperm : List.Perm (sortCountsDesc (domainCountsOf ts)) (domainCountsOf ts) :=
    List.perm_insertionSort _ _
  have htake : domainTransferCounts ts = (sortCountsDesc (domainCountsOf ts)).take 10 := rfl
  have hsubset : ∀ e ∈ domainTransferCounts ts, e ∈ domainCountsOf ts := by
    intro e he
    rw [htake] at he
    exact hperm.mem_iff.mp ((List.take_sublist _ _).subset he)
  refine ⟨?_, ?_, ?_, ?_, ?_, ?_⟩
  · rw [htake, List.length_take]
    exact min_le_left _ _
  · rw [htake]
    exact hsorted.sublist (List.take_sublist _ _)
  · intro e he
    obtain ⟨g, _, _, hpos⟩ := domainCountsOf_spec ts e (hsubset e he)
    exact hpos
  · intro e he
    obtain ⟨g, hg, hcount, _⟩ := domainCountsOf_spec ts e (hsubset e he)
    exact ⟨g, hg, hcount⟩
  · intro d hd hnot e he
    have hdS : d ∈ (sortCountsDesc (domainCountsOf ts)).take 10 ++
        (sortCountsDesc (domainCountsOf ts)).drop 10 := by
      rw [List.take_append_drop]
      exact hperm.mem_iff.mpr hd
    have hdrop : d ∈ (sortCountsDesc (domainCountsOf ts)).drop 10 := by
      rcases List.mem_append.mp hdS with h | h
      · rw [← htake] at h
        exact absurd h hnot
      · exact h
    have hpw : List.Pairwise (fun a b => b.transferCount ≤ a.transferCount)
        ((sortCountsDesc (domainCountsOf ts)).take 10 ++
          (sortCountsDesc (domainCountsOf ts)).drop 10) := by
      rw [List.take_append_drop]
      exact hsorted
    have hcross := (List.pairwise_append.mp hpw).2.2
    rw [htake] at he
    exact hcross e he d hdrop
  · exact countTransitions_dedup

/-- Witness for C10 on a concrete transfer sample. -/
theorem C10_witness :
    (domainTransferCounts exLbTs).length ≤ 10 ∧
    0 < (⟨"foo.eth", 1⟩ : DomainTransferCount).transferCount :=
  ⟨(C10_theorem exLbTs).1,
   (C10_theorem exLbTs).2.2.1 ⟨"foo.eth", 1⟩ (by decide)⟩
